import Mathlib

set_option maxRecDepth 100000

/-!
Shallow embedding of the CRC-32 table generator (`src/tools/gen_crc32_table.c`)
and of the checksum engine described in the design document, together with
proofs of the algebraic properties the tables rely on.

Machine integers are modelled as `Nat`; every CRC remainder produced by the
functions below stays below `2^32`, which is proved where needed rather than
enforced by masking (the C code's `uint32_t` operations `>> 1` and `^` never
overflow).
-/

/-- Embedding of `crc32_update_bit`: one cycle of the reflected LFSR,
`(remainder >> 1) ^ (((remainder ^ next_bit) & 1) ? 0xEDB88320 : 0)`. -/
def crc32_update_bit (remainder next_bit : Nat) : Nat :=
  (remainder >>> 1) ^^^ (if (remainder ^^^ next_bit) &&& 1 = 1 then 0xEDB88320 else 0)

/-- The loop body of `crc32_update_byte`: `n` iterations of
`remainder = crc32_update_bit(remainder, next_byte & 1); next_byte >>= 1`. -/
def updateBits : Nat → Nat → Nat → Nat
  | remainder, _, 0 => remainder
  | remainder, next_byte, n + 1 =>
      updateBits (crc32_update_bit remainder (next_byte &&& 1)) (next_byte >>> 1) n

/-- Embedding of `crc32_update_byte`: feed the byte's 8 bits, LSB first. -/
def crc32_update_byte (remainder next_byte : Nat) : Nat :=
  updateBits remainder next_byte 8

/-- Entry `i` of table group `k`: group 0 is `crc32_update_byte(0, i)`, and
each later group applies `crc32_update_byte(_, 0)` once more, exactly as the
loop `crc32_table[i] = crc32_update_byte(crc32_table[i - 0x100], 0)` does. -/
def crc32_table_entry : Nat → Nat → Nat
  | i, 0 => crc32_update_byte 0 i
  | i, k + 1 => crc32_update_byte (crc32_table_entry i k) 0

/-- Embedding of the `crc32_table[0x800]` array: index `i` lives in group
`i / 0x100` at byte value `i % 0x100`. -/
def crc32_table (i : Nat) : Nat :=
  crc32_table_entry (i % 0x100) (i / 0x100)

/-- Apply `crc32_update_byte(_, 0)` to `remainder`, `n` times in sequence. -/
def zeroUpdates : Nat → Nat → Nat
  | remainder, 0 => remainder
  | remainder, n + 1 => zeroUpdates (crc32_update_byte remainder 0) n

/-- Embedding of the `crc32_rolling[0x100]` array: the generator computes
`remainder = crc32_update_byte(0, i)` and then runs
`for (j = 0; j < 16; j++) remainder = crc32_update_byte(remainder, 0)`. -/
def crc32_rolling (i : Nat) : Nat :=
  zeroUpdates (crc32_update_byte 0 i) 16

/-- The naive byte-at-a-time CRC-32: fold `crc32_update_byte` over the data. -/
def crcBytes : Nat → List Nat → Nat
  | remainder, [] => remainder
  | remainder, b :: bs => crcBytes (crc32_update_byte remainder b) bs

/-- Little-endian packing of a byte list into one word (LSB first). -/
def packLE : List Nat → Nat
  | [] => 0
  | b :: bs => b ^^^ (packLE bs <<< 8)

/-- Modelled from the spec: the slice-by-4 batched computation of the
Checksum Engine, which is not part of `src/` (only its tables are). Each full
4-byte group is XORed into the 32-bit remainder as a little-endian word `x`
and replaced by the XOR of table-group lookups `group[3 - k]` at byte `k` of
`x` (groups live at flat offsets `k * 0x100` of `crc32_table`); leftover
bytes are finished with single-byte steps. -/
def crc32_slice4 : Nat → List Nat → Nat
  | remainder, b0 :: b1 :: b2 :: b3 :: rest =>
      let x := remainder ^^^ (b0 ^^^ (b1 <<< 8) ^^^ (b2 <<< 16) ^^^ (b3 <<< 24))
      crc32_slice4
        (crc32_table (0x300 + (x &&& 0xFF)) ^^^
         crc32_table (0x200 + ((x >>> 8) &&& 0xFF)) ^^^
         crc32_table (0x100 + ((x >>> 16) &&& 0xFF)) ^^^
         crc32_table (x >>> 24)) rest
  | remainder, bs => crcBytes remainder bs

/-- Modelled from the spec: the slice-by-8 batched computation of the
Checksum Engine, which is not part of `src/`. The remainder is XORed into the
first four bytes of each full 8-byte group; groups 7..4 consume those, groups
3..0 consume the last four bytes directly; leftover bytes are finished with
single-byte steps. -/
def crc32_slice8 : Nat → List Nat → Nat
  | remainder, b0 :: b1 :: b2 :: b3 :: b4 :: b5 :: b6 :: b7 :: rest =>
      let x := remainder ^^^ (b0 ^^^ (b1 <<< 8) ^^^ (b2 <<< 16) ^^^ (b3 <<< 24))
      crc32_slice8
        (crc32_table (0x700 + (x &&& 0xFF)) ^^^
         crc32_table (0x600 + ((x >>> 8) &&& 0xFF)) ^^^
         crc32_table (0x500 + ((x >>> 16) &&& 0xFF)) ^^^
         crc32_table (0x400 + (x >>> 24)) ^^^
         crc32_table (0x300 + b4) ^^^
         crc32_table (0x200 + b5) ^^^
         crc32_table (0x100 + b6) ^^^
         crc32_table b7) rest
  | remainder, bs => crcBytes remainder bs

/-- Modelled from the spec: the Engine's rolling scan (present in the source
only as commented-out test code). Starting from the checksum `h` of the
current window, emit `h` and roll forward with
`update_byte(h, incoming) XOR crc32_rolling[outgoing]` while incoming bytes
remain; `outs` supplies the outgoing bytes (the stream itself) and `incs`
the incoming bytes (the stream shifted by the window width). -/
def rollingWindows : Nat → List Nat → List Nat → List Nat
  | h, outgoing :: outs, incoming :: incs =>
      h :: rollingWindows (crc32_update_byte h incoming ^^^ crc32_rolling outgoing) outs incs
  | h, _, _ => [h]

/-- Modelled from the spec: the rolling checksum of every width-`W` window of
`data`, one value per window offset `0 .. data.length - W`; the first window
is computed from scratch and the rest by rolling. -/
def rollingHashes (data : List Nat) (W : Nat) : List Nat :=
  if data.length < W then []
  else rollingWindows (crcBytes 0 (data.take W)) data (data.drop W)

/-- Modelled from the spec: the candidate duplicate-window pairs
`(offset_a, offset_b)` with `offset_a < offset_b` whose rolling checksums are
equal. -/
def candidatePairs (data : List Nat) (W : Nat) : List (Nat × Nat) :=
  let hs := rollingHashes data W
  (List.range hs.length).flatMap fun b =>
    ((List.range b).filter fun a => hs.getD a 0 == hs.getD b 0).map fun a => (a, b)

/-- The digit-consuming loop of `parse_compression_level`:
`for (p = arg; *p >= '0' && *p <= '9'; p++) level = (level * 10) + (*p - '0');`
with `level` an `unsigned long` (wraps modulo `2^64`). Returns the final
`level` and the unconsumed tail of the string. -/
def parse_level_digits : Nat → List Nat → Nat × List Nat
  | level, [] => (level, [])
  | level, c :: cs =>
      if 48 ≤ c ∧ c ≤ 57 then parse_level_digits ((level * 10 + (c - 48)) % 2 ^ 64) cs
      else (level, c :: cs)

/-- Embedding of `parse_compression_level` (`src/programs/prog_util.c`): the
option character and argument string are modelled as character codes, the
string as the list of its characters before the terminating NUL.  The initial
value is `opt_char - '0'` computed in `unsigned long` arithmetic; after the
digit loop the result is rejected (0 returned) unless it lies in `[1, 12]`
and the whole argument was consumed. -/
def parse_compression_level (opt_char : Nat) (arg : List Nat) : Nat :=
  let level0 := (opt_char + 2 ^ 64 - 48) % 2 ^ 64
  let p := parse_level_digits level0 arg
  if p.1 < 1 ∨ 12 < p.1 ∨ p.2 ≠ [] then 0 else p.1

/-! ### Basic bit-level algebra -/

theorem shiftRight_one_xor (a b : Nat) : (a ^^^ b) >>> 1 = (a >>> 1) ^^^ (b >>> 1) := by
  apply Nat.eq_of_testBit_eq
  intro i
  simp [Nat.testBit_shiftRight, Nat.testBit_xor]

theorem xor_left_comm (a b c : Nat) : a ^^^ (b ^^^ c) = b ^^^ (a ^^^ c) := by
  rw [← Nat.xor_assoc, Nat.xor_comm a b, Nat.xor_assoc]

theorem and_one_cases (a : Nat) : a &&& 1 = 0 ∨ a &&& 1 = 1 := by
  rw [Nat.and_one_is_mod]
  omega

theorem xor_xor_xor_comm (a b c d : Nat) :
    (a ^^^ b) ^^^ (c ^^^ d) = (a ^^^ c) ^^^ (b ^^^ d) := by
  rw [Nat.xor_assoc, Nat.xor_assoc, xor_left_comm b c d]

theorem cond_xor (p q c : Nat) (hp : p = 0 ∨ p = 1) (hq : q = 0 ∨ q = 1) :
    (if p ^^^ q = 1 then c else 0) =
      (if p = 1 then c else 0) ^^^ (if q = 1 then c else 0) := by
  rcases hp with hp | hp <;> rcases hq with hq | hq <;> subst hp <;> subst hq <;> simp

/-- `crc32_update_bit` is XOR-bilinear in remainder and input bit jointly. -/
theorem crc32_update_bit_bilinear (a b x y : Nat) :
    crc32_update_bit (a ^^^ b) (x ^^^ y) =
      crc32_update_bit a x ^^^ crc32_update_bit b y := by
  unfold crc32_update_bit
  have hparity : (a ^^^ b ^^^ (x ^^^ y)) &&& 1 =
      ((a ^^^ x) &&& 1) ^^^ ((b ^^^ y) &&& 1) := by
    simp only [Nat.and_xor_distrib_right]
    exact xor_xor_xor_comm _ _ _ _
  rw [hparity, cond_xor _ _ _ (and_one_cases _) (and_one_cases _),
    shiftRight_one_xor, xor_xor_xor_comm]

/-- `updateBits` is XOR-bilinear in remainder and input jointly. -/
theorem updateBits_bilinear (n : Nat) :
    ∀ a b x y, updateBits (a ^^^ b) (x ^^^ y) n =
      updateBits a x n ^^^ updateBits b y n := by
  induction n with
  | zero => intro a b x y; rfl
  | succ n ih =>
      intro a b x y
      show updateBits (crc32_update_bit (a ^^^ b) ((x ^^^ y) &&& 1)) ((x ^^^ y) >>> 1) n = _
      rw [Nat.and_xor_distrib_right, shiftRight_one_xor, crc32_update_bit_bilinear]
      exact ih _ _ _ _

/-- `crc32_update_byte` is XOR-bilinear in remainder and input byte jointly. -/
theorem crc32_update_byte_bilinear (a b x y : Nat) :
    crc32_update_byte (a ^^^ b) (x ^^^ y) =
      crc32_update_byte a x ^^^ crc32_update_byte b y :=
  updateBits_bilinear 8 a b x y

theorem crc32_update_byte_left_linear (a b : Nat) :
    crc32_update_byte (a ^^^ b) 0 =
      crc32_update_byte a 0 ^^^ crc32_update_byte b 0 := by
  have h := crc32_update_byte_bilinear a b 0 0
  simpa using h

/-- Feeding the low bit of `b` and keeping `b >>> 1` for later is the same as
XORing all of `b` into the remainder and feeding a zero bit, as long as the
leftover high part is eventually consumed. -/
theorem crc32_update_bit_absorb_step (r b : Nat) :
    crc32_update_bit r (b &&& 1) ^^^ (b >>> 1) = crc32_update_bit (r ^^^ b) 0 := by
  unfold crc32_update_bit
  have hcond : (r ^^^ b &&& 1) &&& 1 = (r ^^^ b ^^^ 0) &&& 1 := by
    rw [Nat.xor_zero, Nat.and_xor_distrib_right, Nat.and_xor_distrib_right,
      Nat.and_assoc]
    rw [show (1 : Nat) &&& 1 = 1 from rfl]
  rw [hcond, Nat.xor_zero, shiftRight_one_xor, Nat.xor_assoc]
  simp [Nat.xor_assoc, Nat.xor_comm, xor_left_comm]

/-- XORing a byte into the low bits of the remainder is the same as feeding it
as input: `update_byte(r, b) = update_byte(r ^ b, 0)` for `b < 2^8`. -/
theorem updateBits_absorb (n : Nat) :
    ∀ r b, b < 2 ^ n → updateBits r b n = updateBits (r ^^^ b) 0 n := by
  induction n with
  | zero =>
      intro r b hb
      interval_cases b
      simp [updateBits]
  | succ n ih =>
      intro r b hb
      show updateBits (crc32_update_bit r (b &&& 1)) (b >>> 1) n = _
      have hb' : b >>> 1 < 2 ^ n := by
        rw [Nat.shiftRight_succ, Nat.shiftRight_zero] at *
        omega
      rw [ih _ _ hb', crc32_update_bit_absorb_step]
      show _ = updateBits (crc32_update_bit (r ^^^ b) ((0 : Nat) &&& 1)) ((0 : Nat) >>> 1) n
      rfl

theorem crc32_update_byte_absorb (r b : Nat) (hb : b < 256) :
    crc32_update_byte r b = crc32_update_byte (r ^^^ b) 0 :=
  updateBits_absorb 8 r b hb

theorem crc32_update_byte_swap_zero (b : Nat) (hb : b < 256) :
    crc32_update_byte 0 b = crc32_update_byte b 0 := by
  have h := crc32_update_byte_absorb 0 b hb
  simpa using h

/-! ### Iterated zero updates and byte folds -/

theorem zeroUpdates_succ_back (n : Nat) :
    ∀ r, zeroUpdates r (n + 1) = crc32_update_byte (zeroUpdates r n) 0 := by
  induction n with
  | zero => intro r; rfl
  | succ n ih =>
      intro r
      show zeroUpdates (crc32_update_byte r 0) (n + 1) = _
      rw [ih]
      rfl

theorem zeroUpdates_linear (n : Nat) :
    ∀ a b, zeroUpdates (a ^^^ b) n = zeroUpdates a n ^^^ zeroUpdates b n := by
  induction n with
  | zero => intro a b; rfl
  | succ n ih =>
      intro a b
      show zeroUpdates (crc32_update_byte (a ^^^ b) 0) n = _
      rw [crc32_update_byte_left_linear, ih]
      rfl

theorem crcBytes_append (l1 l2 : List Nat) :
    ∀ r, crcBytes r (l1 ++ l2) = crcBytes (crcBytes r l1) l2 := by
  induction l1 with
  | nil => intro r; rfl
  | cons b bs ih => intro r; exact ih _

theorem crcBytes_replicate_zero (n : Nat) :
    ∀ r, crcBytes r (List.replicate n 0) = zeroUpdates r n := by
  induction n with
  | zero => intro r; rfl
  | succ n ih => intro r; exact ih _

/-- Splitting a fold over XOR: the `b` component sees only zero input bytes. -/
theorem crcBytes_xor_split (bs : List Nat) :
    ∀ a b, crcBytes (a ^^^ b) bs = crcBytes a bs ^^^ zeroUpdates b bs.length := by
  induction bs with
  | nil => intro a b; rfl
  | cons c cs ih =>
      intro a b
      show crcBytes (crc32_update_byte (a ^^^ b) c) cs = _
      have hsplit : crc32_update_byte (a ^^^ b) c =
          crc32_update_byte a c ^^^ crc32_update_byte b 0 := by
        have h := crc32_update_byte_bilinear a b c 0
        simpa using h
      rw [hsplit, ih]
      rfl

/-! ### Range bounds: every remainder stays below `2^32` -/

theorem crc32_update_bit_lt (r x : Nat) (hr : r < 2 ^ 32) :
    crc32_update_bit r x < 2 ^ 32 := by
  unfold crc32_update_bit
  apply Nat.xor_lt_two_pow
  · calc r >>> 1 ≤ r := by rw [Nat.shiftRight_succ, Nat.shiftRight_zero]; omega
      _ < 2 ^ 32 := hr
  · split <;> norm_num

theorem updateBits_lt (n : Nat) :
    ∀ r x, r < 2 ^ 32 → updateBits r x n < 2 ^ 32 := by
  induction n with
  | zero => intro r x hr; exact hr
  | succ n ih =>
      intro r x hr
      exact ih _ _ (crc32_update_bit_lt _ _ hr)

theorem crc32_update_byte_lt (r x : Nat) (hr : r < 2 ^ 32) :
    crc32_update_byte r x < 2 ^ 32 :=
  updateBits_lt 8 r x hr

theorem zeroUpdates_lt (n : Nat) :
    ∀ r, r < 2 ^ 32 → zeroUpdates r n < 2 ^ 32 := by
  induction n with
  | zero => intro r hr; exact hr
  | succ n ih => intro r hr; exact ih _ (crc32_update_byte_lt _ _ hr)

theorem crc32_table_lt (i : Nat) : crc32_table i < 2 ^ 32 := by
  unfold crc32_table
  generalize i % 0x100 = v
  generalize i / 0x100 = k
  induction k with
  | zero => exact crc32_update_byte_lt _ _ (by norm_num)
  | succ k ih => exact crc32_update_byte_lt _ _ ih

/-! ### Structure of the generated tables -/

theorem crc32_table_entry_eq (i : Nat) :
    ∀ k, crc32_table_entry i k = zeroUpdates (crc32_update_byte 0 i) k := by
  intro k
  induction k with
  | zero => rfl
  | succ k ih =>
      show crc32_update_byte (crc32_table_entry i k) 0 = _
      rw [ih, zeroUpdates_succ_back]

theorem crc32_table_index (k i : Nat) (hi : i < 256) :
    crc32_table (k * 0x100 + i) = crc32_table_entry i k := by
  unfold crc32_table
  have h1 : (k * 0x100 + i) % 0x100 = i := by omega
  have h2 : (k * 0x100 + i) / 0x100 = k := by omega
  rw [h1, h2]

theorem crc32_table_small (i : Nat) (hi : i < 256) :
    crc32_table i = crc32_update_byte 0 i := by
  unfold crc32_table
  have h1 : i % 0x100 = i := Nat.mod_eq_of_lt hi
  have h2 : i / 0x100 = 0 := Nat.div_eq_of_lt hi
  rw [h1, h2]
  rfl

/-- Fidelity check against the source loop: for `0x100 <= i`, the table entry
is `crc32_update_byte(crc32_table[i - 0x100], 0)`. -/
theorem crc32_table_src_step (i : Nat) (hi : 0x100 ≤ i) :
    crc32_table i = crc32_update_byte (crc32_table (i - 0x100)) 0 := by
  unfold crc32_table
  have h1 : (i - 0x100) % 0x100 = i % 0x100 := by omega
  have h2 : i / 0x100 = (i - 0x100) / 0x100 + 1 := by omega
  rw [h1, h2]
  rfl

/-! ### Claim theorems: algebraic contract of `crc32_update_byte` -/

/-- C5: `update_byte(0, 0) == 0`, and `update_byte` with zero input byte is
linear over XOR in the remainder: for all 32-bit `a`, `b`,
`update_byte(a XOR b, 0) == update_byte(a, 0) XOR update_byte(b, 0)`. -/
theorem update_byte_zero_and_left_linear :
    crc32_update_byte 0 0 = 0 ∧
      ∀ a b : Nat, a < 2 ^ 32 → b < 2 ^ 32 →
        crc32_update_byte (a ^^^ b) 0 =
          crc32_update_byte a 0 ^^^ crc32_update_byte b 0 :=
  ⟨by decide, fun a b _ _ => crc32_update_byte_left_linear a b⟩

theorem update_byte_zero_and_left_linear_witness :
    crc32_update_byte (3 ^^^ 5) 0 = crc32_update_byte 3 0 ^^^ crc32_update_byte 5 0 :=
  update_byte_zero_and_left_linear.2 3 5 (by decide) (by decide)

/-- C8: `update_byte` is fully XOR-linear, separating remainder and input
byte: `update_byte(r, b) == update_byte(r, 0) XOR update_byte(0, b)`. -/
theorem update_byte_fully_linear (r b : Nat) (hr : r < 2 ^ 32) (hb : b < 256) :
    crc32_update_byte r b = crc32_update_byte r 0 ^^^ crc32_update_byte 0 b := by
  have h := crc32_update_byte_bilinear r 0 0 b
  simpa using h

theorem update_byte_fully_linear_witness :
    crc32_update_byte 7 9 = crc32_update_byte 7 0 ^^^ crc32_update_byte 0 9 :=
  update_byte_fully_linear 7 9 (by decide) (by decide)

/-! ### Claim theorems: contents of the generated tables -/

/-- C6: for every byte value `i`, the base table entry `crc32_table[i]`
equals `update_byte(0, i)`, and `crc32_table[0] == 0`. -/
theorem base_table_matches_update_byte :
    (∀ i, i < 256 → crc32_table i = crc32_update_byte 0 i) ∧ crc32_table 0 = 0 :=
  ⟨fun i hi => crc32_table_small i hi, by decide⟩

theorem base_table_matches_update_byte_witness :
    crc32_table 5 = crc32_update_byte 0 5 :=
  base_table_matches_update_byte.1 5 (by decide)

/-- C4: for every group index `k` with `1 <= k < 8` and byte value `i`, the
entry `crc32_table[k*0x100 + i]` is the result of applying
`update_byte(_, 0)` exactly `k` times to `crc32_table[i]`. -/
theorem table_groups_are_zero_iterates (k i : Nat)
    (hk1 : 1 ≤ k) (hk8 : k < 8) (hi : i < 256) :
    crc32_table (k * 0x100 + i) = zeroUpdates (crc32_table i) k := by
  rw [crc32_table_index k i hi, crc32_table_entry_eq, crc32_table_small i hi]

theorem table_groups_are_zero_iterates_witness :
    crc32_table (2 * 0x100 + 3) = zeroUpdates (crc32_table 3) 2 :=
  table_groups_are_zero_iterates 2 3 (by decide) (by decide) (by decide)

/-- C9: entry 0 of every table group is zero, and `crc32_rolling[0] == 0`. -/
theorem zero_entry_of_every_table :
    (∀ k, k < 8 → crc32_table (k * 0x100) = 0) ∧ crc32_rolling 0 = 0 := by
  constructor
  · intro k hk
    have h : crc32_table (k * 0x100 + 0) = zeroUpdates (crc32_table 0) k := by
      rw [crc32_table_index k 0 (by decide), crc32_table_entry_eq,
        crc32_table_small 0 (by decide)]
    have h0 : crc32_table 0 = 0 := by decide
    have hz : ∀ n, zeroUpdates 0 n = 0 := by
      intro n
      induction n with
      | zero => rfl
      | succ n ih =>
          show zeroUpdates (crc32_update_byte 0 0) n = 0
          rw [show crc32_update_byte 0 0 = 0 by decide]
          exact ih
    rw [← Nat.add_zero (k * 0x100), h, h0, hz]
  · decide

theorem zero_entry_of_every_table_witness :
    crc32_table (3 * 0x100) = 0 :=
  zero_entry_of_every_table.1 3 (by decide)

/-! ### Claim theorems: the rolling table and the rolling update -/

/-- C3 counterexample: `crc32_rolling[1]` is NOT the CRC-32 of byte 1 followed
by `W - 1 = 15` zero bytes; the generator's loop runs 16 zero updates, not 15. -/
theorem rolling_entry_not_15_zero_bytes :
    crc32_rolling 1 ≠ crcBytes 0 (1 :: List.replicate 15 0) := by
  decide

/-- C3 amended: for every byte value `i`, `crc32_rolling[i]` equals the CRC-32
of byte `i` followed by exactly `W = 16` zero bytes, i.e. `update_byte(0, i)`
followed by exactly 16 further applications of `update_byte(_, 0)`. -/
theorem rolling_entry_is_byte_then_16_zero_bytes (i : Nat) (hi : i < 256) :
    crc32_rolling i = crcBytes 0 (i :: List.replicate 16 0) := by
  show _ = crcBytes (crc32_update_byte 0 i) (List.replicate 16 0)
  rw [crcBytes_replicate_zero]
  rfl

theorem rolling_entry_is_byte_then_16_zero_bytes_witness :
    crc32_rolling 7 = crcBytes 0 (7 :: List.replicate 16 0) :=
  rolling_entry_is_byte_then_16_zero_bytes 7 (by decide)

/-- C1: sliding a width-16 window one byte forward, the rolling update
`update_byte(remainder, incoming) XOR crc32_rolling[outgoing]` — where
`remainder` is the checksum of the old window `outgoing :: w` — equals the
checksum of the new window `w ++ [incoming]` recomputed from scratch by
folding `update_byte` over its 16 bytes starting from remainder 0.  No
byte-range hypotheses are needed: the identity holds for all `Nat` values,
in particular for equal incoming/outgoing bytes and the all-zero window. -/
theorem rolling_update_matches_scratch (w : List Nat) (outgoing incoming : Nat)
    (hw : w.length = 15) :
    crc32_update_byte (crcBytes 0 (outgoing :: w)) incoming ^^^ crc32_rolling outgoing =
      crcBytes 0 (w ++ [incoming]) := by
  have h1 : crcBytes 0 (outgoing :: w) =
      crcBytes 0 w ^^^ zeroUpdates (crc32_update_byte 0 outgoing) 15 := by
    show crcBytes (crc32_update_byte 0 outgoing) w = _
    have h := crcBytes_xor_split w 0 (crc32_update_byte 0 outgoing)
    rw [hw] at h
    simpa using h
  have h2 : crc32_update_byte
        (crcBytes 0 w ^^^ zeroUpdates (crc32_update_byte 0 outgoing) 15) incoming =
      crc32_update_byte (crcBytes 0 w) incoming ^^^
        crc32_update_byte (zeroUpdates (crc32_update_byte 0 outgoing) 15) 0 := by
    have h := crc32_update_byte_bilinear (crcBytes 0 w)
      (zeroUpdates (crc32_update_byte 0 outgoing) 15) incoming 0
    simpa using h
  have h3 : crc32_update_byte (zeroUpdates (crc32_update_byte 0 outgoing) 15) 0 =
      crc32_rolling outgoing := by
    rw [← zeroUpdates_succ_back]
    rfl
  have h4 : crc32_update_byte (crcBytes 0 w) incoming = crcBytes 0 (w ++ [incoming]) := by
    rw [crcBytes_append]
    rfl
  rw [h1, h2, h3, h4, Nat.xor_assoc, Nat.xor_self, Nat.xor_zero]

theorem rolling_update_matches_scratch_witness :
    crc32_update_byte (crcBytes 0 (65 :: List.replicate 15 65)) 66 ^^^ crc32_rolling 65 =
      crcBytes 0 (List.replicate 15 65 ++ [66]) :=
  rolling_update_matches_scratch (List.replicate 15 65) 65 66 (by decide)

/-! ### Machinery for slice-by-N: absorbing bytes into the remainder -/

theorem shiftLeft_xor_distrib (a b n : Nat) :
    (a ^^^ b) <<< n = (a <<< n) ^^^ (b <<< n) := by
  apply Nat.eq_of_testBit_eq
  intro i
  simp [Nat.testBit_shiftLeft, Nat.testBit_xor, Bool.and_xor_distrib_left]

theorem zeroUpdates_zero : ∀ n, zeroUpdates 0 n = 0 := by
  intro n
  induction n with
  | zero => rfl
  | succ n ih =>
      show zeroUpdates (crc32_update_byte 0 0) n = 0
      rw [show crc32_update_byte 0 0 = 0 by decide]
      exact ih

theorem zeroUpdates_add (m : Nat) :
    ∀ n r, zeroUpdates r (m + n) = zeroUpdates (zeroUpdates r m) n := by
  induction m with
  | zero => intro n r; rw [Nat.zero_add]; rfl
  | succ m ih =>
      intro n r
      have h : m + 1 + n = (m + n) + 1 := by omega
      rw [h]
      show zeroUpdates (crc32_update_byte r 0) (m + n) = _
      rw [ih]
      rfl

/-- Zero updates consume left-shifted content one byte position at a time:
`update_byte(c << n-bits, 0)` peels off one byte of shift when `n = 8`. -/
theorem updateBits_shiftLeft_strip : ∀ (n : Nat) (c : Nat), updateBits (c <<< n) 0 n = c := by
  intro n
  induction n with
  | zero => intro c; rw [Nat.shiftLeft_zero]; rfl
  | succ n ih =>
      intro c
      show updateBits (crc32_update_bit (c <<< (n + 1)) 0) 0 n = c
      have hbit : crc32_update_bit (c <<< (n + 1)) 0 = c <<< n := by
        unfold crc32_update_bit
        have hc : (c <<< (n + 1) ^^^ 0) &&& 1 = 0 := by
          rw [Nat.xor_zero, Nat.and_one_is_mod, Nat.shiftLeft_eq, Nat.pow_succ,
            ← Nat.mul_assoc, Nat.mul_mod_left]
        rw [hc]
        have hs : c <<< (n + 1) >>> 1 = c <<< n := by
          rw [Nat.shiftLeft_eq, Nat.shiftLeft_eq, Nat.pow_succ, ← Nat.mul_assoc,
            Nat.shiftRight_succ, Nat.shiftRight_zero,
            Nat.mul_div_cancel _ (by norm_num : 0 < 2)]
        rw [hs]
        simp
      rw [hbit]
      exact ih c

theorem crc32_update_byte_shiftLeft8 (c : Nat) : crc32_update_byte (c <<< 8) 0 = c :=
  updateBits_shiftLeft_strip 8 c

theorem and_mask8_eq_mod (y : Nat) : y &&& 0xFF = y % 256 := by
  have h := Nat.and_pow_two_sub_one_eq_mod y 8
  norm_num at h
  exact h

theorem mask8_lt (y : Nat) : y &&& 0xFF < 256 :=
  lt_of_le_of_lt Nat.and_le_right (by norm_num)

theorem mask8_decomp (y : Nat) : (y &&& 0xFF) ^^^ ((y >>> 8) <<< 8) = y := by
  apply Nat.eq_of_testBit_eq
  intro i
  simp only [Nat.testBit_xor, Nat.testBit_and, Nat.testBit_shiftLeft,
    Nat.testBit_shiftRight]
  have h255 : Nat.testBit 0xFF i = decide (i < 8) := by
    have h := Nat.testBit_two_pow_sub_one 8 i
    norm_num at h
    exact h
  rw [h255]
  by_cases h : i < 8
  · simp [h, show ¬(8 ≤ i) from by omega]
  · have h8 : 8 ≤ i := Nat.le_of_not_lt h
    have he : 8 + (i - 8) = i := by omega
    simp [h, h8, he]

/-- Peeling one byte position off a zero-input update: the low byte passes
through the byte-transition, the rest just shifts down. -/
theorem update_byte_zero_peel (y : Nat) :
    crc32_update_byte y 0 = crc32_update_byte 0 (y &&& 0xFF) ^^^ (y >>> 8) := by
  conv_lhs => rw [← mask8_decomp y]
  rw [crc32_update_byte_left_linear, crc32_update_byte_shiftLeft8,
    ← crc32_update_byte_swap_zero _ (mask8_lt y)]

theorem zeroUpdates_peel (y m : Nat) :
    zeroUpdates y (m + 1) =
      zeroUpdates (crc32_update_byte 0 (y &&& 0xFF)) m ^^^ zeroUpdates (y >>> 8) m := by
  show zeroUpdates (crc32_update_byte y 0) m = _
  rw [update_byte_zero_peel, zeroUpdates_linear]

/-- Folding a byte list is the same as XORing its little-endian packing into
the remainder up front and then running only zero updates. -/
theorem crcBytes_absorb (bs : List Nat) :
    ∀ r, (∀ b ∈ bs, b < 256) → crcBytes r bs = zeroUpdates (r ^^^ packLE bs) bs.length := by
  induction bs with
  | nil => intro r _; show r = zeroUpdates (r ^^^ 0) 0; rw [Nat.xor_zero]; rfl
  | cons b bs ih =>
      intro r hb
      have hbb : b < 256 := hb b (by simp)
      have hrest : ∀ x ∈ bs, x < 256 := fun x hx => hb x (by simp [hx])
      show crcBytes (crc32_update_byte r b) bs = _
      rw [ih _ hrest]
      have hkey : crc32_update_byte (r ^^^ (b ^^^ (packLE bs <<< 8))) 0 =
          crc32_update_byte r b ^^^ packLE bs := by
        rw [← Nat.xor_assoc, crc32_update_byte_left_linear,
          crc32_update_byte_shiftLeft8, ← crc32_update_byte_absorb r b hbb]
      show zeroUpdates (crc32_update_byte r b ^^^ packLE bs) bs.length =
        zeroUpdates (crc32_update_byte (r ^^^ (b ^^^ (packLE bs <<< 8))) 0) bs.length
      rw [hkey]

theorem table_lookup (k v : Nat) (hv : v < 256) :
    crc32_table (k * 0x100 + v) = zeroUpdates (crc32_update_byte 0 v) k := by
  rw [crc32_table_index k v hv, crc32_table_entry_eq]

theorem shiftRight24_lt (x : Nat) (hx : x < 2 ^ 32) : x >>> 24 < 256 := by
  rw [Nat.shiftRight_eq_div_pow]
  have h : x < 256 * 2 ^ 24 := lt_of_lt_of_le hx (by norm_num)
  exact Nat.div_lt_of_lt_mul h

theorem shiftRight32_eq_zero (x : Nat) (hx : x < 2 ^ 32) : x >>> 32 = 0 := by
  rw [Nat.shiftRight_eq_div_pow]
  exact Nat.div_eq_of_lt hx

/-- Four zero-update peels: a 32-bit value fed through `m + 4` zero updates
splits into its four bytes, each fed through correspondingly fewer updates. -/
theorem zeroUpdates_four_peel (x : Nat) (hx : x < 2 ^ 32) (m : Nat) :
    zeroUpdates x (m + 4) =
      zeroUpdates (crc32_update_byte 0 (x &&& 0xFF)) (m + 3) ^^^
      zeroUpdates (crc32_update_byte 0 ((x >>> 8) &&& 0xFF)) (m + 2) ^^^
      zeroUpdates (crc32_update_byte 0 ((x >>> 16) &&& 0xFF)) (m + 1) ^^^
      zeroUpdates (crc32_update_byte 0 (x >>> 24)) m := by
  have e2 : x >>> 8 >>> 8 = x >>> 16 := by rw [← Nat.shiftRight_add]
  have e3 : x >>> 16 >>> 8 = x >>> 24 := by rw [← Nat.shiftRight_add]
  have e4 : x >>> 24 >>> 8 = x >>> 32 := by rw [← Nat.shiftRight_add]
  have emask : (x >>> 24) &&& 0xFF = x >>> 24 := by
    rw [and_mask8_eq_mod]
    exact Nat.mod_eq_of_lt (shiftRight24_lt x hx)
  have h1 : zeroUpdates x (m + 4) =
      zeroUpdates (crc32_update_byte 0 (x &&& 0xFF)) (m + 3) ^^^
        zeroUpdates (x >>> 8) (m + 3) := zeroUpdates_peel x (m + 3)
  have h2 : zeroUpdates (x >>> 8) (m + 3) =
      zeroUpdates (crc32_update_byte 0 ((x >>> 8) &&& 0xFF)) (m + 2) ^^^
        zeroUpdates (x >>> 16) (m + 2) := by
    have h := zeroUpdates_peel (x >>> 8) (m + 2)
    rw [e2] at h
    exact h
  have h3 : zeroUpdates (x >>> 16) (m + 2) =
      zeroUpdates (crc32_update_byte 0 ((x >>> 16) &&& 0xFF)) (m + 1) ^^^
        zeroUpdates (x >>> 24) (m + 1) := by
    have h := zeroUpdates_peel (x >>> 16) (m + 1)
    rw [e3] at h
    exact h
  have h4 : zeroUpdates (x >>> 24) (m + 1) =
      zeroUpdates (crc32_update_byte 0 (x >>> 24)) m := by
    have h := zeroUpdates_peel (x >>> 24) m
    rw [e4, emask, shiftRight32_eq_zero x hx, zeroUpdates_zero, Nat.xor_zero] at h
    exact h
  rw [h1, h2, h3, h4, ← Nat.xor_assoc, ← Nat.xor_assoc]

theorem packLE_four (b0 b1 b2 b3 : Nat) :
    packLE [b0, b1, b2, b3] = b0 ^^^ (b1 <<< 8) ^^^ (b2 <<< 16) ^^^ (b3 <<< 24) := by
  simp [packLE, shiftLeft_xor_distrib, Nat.shiftLeft_shiftLeft, Nat.xor_assoc]

/-- Four input bytes are absorbed into the remainder exactly as the slice-by-N
algorithms combine them with the previous remainder. -/
theorem four_byte_absorb (r b0 b1 b2 b3 : Nat)
    (h0 : b0 < 256) (h1 : b1 < 256) (h2 : b2 < 256) (h3 : b3 < 256) :
    crcBytes r [b0, b1, b2, b3] =
      zeroUpdates (r ^^^ (b0 ^^^ (b1 <<< 8) ^^^ (b2 <<< 16) ^^^ (b3 <<< 24))) 4 := by
  have hb : ∀ b ∈ [b0, b1, b2, b3], b < 256 := by
    intro b hbmem
    simp at hbmem
    rcases hbmem with h | h | h | h <;> omega
  have h := crcBytes_absorb [b0, b1, b2, b3] r hb
  rw [packLE_four] at h
  simpa using h

theorem crcBytes_zero_cons (c : Nat) (cs : List Nat) :
    crcBytes 0 (c :: cs) =
      zeroUpdates (crc32_update_byte 0 c) cs.length ^^^ crcBytes 0 cs := by
  show crcBytes (crc32_update_byte 0 c) cs = _
  have h := crcBytes_xor_split cs 0 (crc32_update_byte 0 c)
  rw [Nat.zero_xor] at h
  rw [h, Nat.xor_comm]

theorem shl_byte_lt (b s : Nat) (hb : b < 256) (hs : s ≤ 24) : b <<< s < 2 ^ 32 := by
  rw [Nat.shiftLeft_eq]
  calc b * 2 ^ s ≤ 255 * 2 ^ 24 :=
        Nat.mul_le_mul (by omega) (Nat.pow_le_pow_right (by norm_num) hs)
    _ < 2 ^ 32 := by norm_num

theorem pack4_lt (b0 b1 b2 b3 : Nat)
    (h0 : b0 < 256) (h1 : b1 < 256) (h2 : b2 < 256) (h3 : b3 < 256) :
    b0 ^^^ (b1 <<< 8) ^^^ (b2 <<< 16) ^^^ (b3 <<< 24) < 2 ^ 32 :=
  Nat.xor_lt_two_pow
    (Nat.xor_lt_two_pow
      (Nat.xor_lt_two_pow (by omega) (shl_byte_lt b1 8 h1 (by norm_num)))
      (shl_byte_lt b2 16 h2 (by norm_num)))
    (shl_byte_lt b3 24 h3 (by norm_num))

theorem slice4_combine (x : Nat) (hx : x < 2 ^ 32) :
    crc32_table (0x300 + (x &&& 0xFF)) ^^^
      crc32_table (0x200 + ((x >>> 8) &&& 0xFF)) ^^^
      crc32_table (0x100 + ((x >>> 16) &&& 0xFF)) ^^^
      crc32_table (x >>> 24) = zeroUpdates x 4 := by
  have t3 := table_lookup 3 (x &&& 0xFF) (mask8_lt _)
  have t2 := table_lookup 2 ((x >>> 8) &&& 0xFF) (mask8_lt _)
  have t1 := table_lookup 1 ((x >>> 16) &&& 0xFF) (mask8_lt _)
  have t0 : crc32_table (x >>> 24) = crc32_update_byte 0 (x >>> 24) :=
    crc32_table_small _ (shiftRight24_lt x hx)
  norm_num at t3 t2 t1
  have h := zeroUpdates_four_peel x hx 0
  norm_num at h
  rw [t3, t2, t1, t0, h]
  rfl

theorem slice8_combine (x : Nat) (hx : x < 2 ^ 32) :
    crc32_table (0x700 + (x &&& 0xFF)) ^^^
      crc32_table (0x600 + ((x >>> 8) &&& 0xFF)) ^^^
      crc32_table (0x500 + ((x >>> 16) &&& 0xFF)) ^^^
      crc32_table (0x400 + (x >>> 24)) = zeroUpdates x 8 := by
  have t7 := table_lookup 7 (x &&& 0xFF) (mask8_lt _)
  have t6 := table_lookup 6 ((x >>> 8) &&& 0xFF) (mask8_lt _)
  have t5 := table_lookup 5 ((x >>> 16) &&& 0xFF) (mask8_lt _)
  have t4 := table_lookup 4 (x >>> 24) (shiftRight24_lt x hx)
  norm_num at t7 t6 t5 t4
  have h := zeroUpdates_four_peel x hx 4
  norm_num at h
  rw [t7, t6, t5, t4, h]

theorem crcBytes_zero_four (b4 b5 b6 b7 : Nat)
    (h4 : b4 < 256) (h5 : b5 < 256) (h6 : b6 < 256) (h7 : b7 < 256) :
    crcBytes 0 [b4, b5, b6, b7] =
      crc32_table (0x300 + b4) ^^^ crc32_table (0x200 + b5) ^^^
        crc32_table (0x100 + b6) ^^^ crc32_table b7 := by
  have t3 := table_lookup 3 b4 h4
  have t2 := table_lookup 2 b5 h5
  have t1 := table_lookup 1 b6 h6
  have t0 : crc32_table b7 = crc32_update_byte 0 b7 := crc32_table_small _ h7
  norm_num at t3 t2 t1
  rw [t3, t2, t1, t0]
  rw [crcBytes_zero_cons, crcBytes_zero_cons, crcBytes_zero_cons, crcBytes_zero_cons]
  simp [Nat.xor_assoc]
  rw [show zeroUpdates (crc32_update_byte 0 b7) 0 = crc32_update_byte 0 b7 from rfl]
  rw [show crcBytes 0 ([] : List Nat) = 0 from rfl, Nat.xor_zero]

theorem slice4_step (r b0 b1 b2 b3 : Nat) (hr : r < 2 ^ 32)
    (h0 : b0 < 256) (h1 : b1 < 256) (h2 : b2 < 256) (h3 : b3 < 256) :
    crc32_table (0x300 + ((r ^^^ (b0 ^^^ (b1 <<< 8) ^^^ (b2 <<< 16) ^^^ (b3 <<< 24))) &&& 0xFF)) ^^^
      crc32_table (0x200 + (((r ^^^ (b0 ^^^ (b1 <<< 8) ^^^ (b2 <<< 16) ^^^ (b3 <<< 24))) >>> 8) &&& 0xFF)) ^^^
      crc32_table (0x100 + (((r ^^^ (b0 ^^^ (b1 <<< 8) ^^^ (b2 <<< 16) ^^^ (b3 <<< 24))) >>> 16) &&& 0xFF)) ^^^
      crc32_table ((r ^^^ (b0 ^^^ (b1 <<< 8) ^^^ (b2 <<< 16) ^^^ (b3 <<< 24))) >>> 24)
      = crcBytes r [b0, b1, b2, b3] := by
  have hx : r ^^^ (b0 ^^^ (b1 <<< 8) ^^^ (b2 <<< 16) ^^^ (b3 <<< 24)) < 2 ^ 32 :=
    Nat.xor_lt_two_pow hr (pack4_lt b0 b1 b2 b3 h0 h1 h2 h3)
  rw [slice4_combine _ hx, four_byte_absorb r b0 b1 b2 b3 h0 h1 h2 h3]

theorem slice8_step (r b0 b1 b2 b3 b4 b5 b6 b7 : Nat) (hr : r < 2 ^ 32)
    (h0 : b0 < 256) (h1 : b1 < 256) (h2 : b2 < 256) (h3 : b3 < 256)
    (h4 : b4 < 256) (h5 : b5 < 256) (h6 : b6 < 256) (h7 : b7 < 256) :
    crc32_table (0x700 + ((r ^^^ (b0 ^^^ (b1 <<< 8) ^^^ (b2 <<< 16) ^^^ (b3 <<< 24))) &&& 0xFF)) ^^^
      crc32_table (0x600 + (((r ^^^ (b0 ^^^ (b1 <<< 8) ^^^ (b2 <<< 16) ^^^ (b3 <<< 24))) >>> 8) &&& 0xFF)) ^^^
      crc32_table (0x500 + (((r ^^^ (b0 ^^^ (b1 <<< 8) ^^^ (b2 <<< 16) ^^^ (b3 <<< 24))) >>> 16) &&& 0xFF)) ^^^
      crc32_table (0x400 + ((r ^^^ (b0 ^^^ (b1 <<< 8) ^^^ (b2 <<< 16) ^^^ (b3 <<< 24))) >>> 24)) ^^^
      crc32_table (0x300 + b4) ^^^
      crc32_table (0x200 + b5) ^^^
      crc32_table (0x100 + b6) ^^^
      crc32_table b7
      = crcBytes r [b0, b1, b2, b3, b4, b5, b6, b7] := by
  have hx : r ^^^ (b0 ^^^ (b1 <<< 8) ^^^ (b2 <<< 16) ^^^ (b3 <<< 24)) < 2 ^ 32 :=
    Nat.xor_lt_two_pow hr (pack4_lt b0 b1 b2 b3 h0 h1 h2 h3)
  have hsplit : crcBytes r [b0, b1, b2, b3, b4, b5, b6, b7] =
      crcBytes (crcBytes r [b0, b1, b2, b3]) [b4, b5, b6, b7] :=
    crcBytes_append [b0, b1, b2, b3] [b4, b5, b6, b7] r
  rw [hsplit, four_byte_absorb r b0 b1 b2 b3 h0 h1 h2 h3]
  have hxs : crcBytes
        (zeroUpdates (r ^^^ (b0 ^^^ (b1 <<< 8) ^^^ (b2 <<< 16) ^^^ (b3 <<< 24))) 4)
        [b4, b5, b6, b7] =
      crcBytes 0 [b4, b5, b6, b7] ^^^
        zeroUpdates
          (zeroUpdates (r ^^^ (b0 ^^^ (b1 <<< 8) ^^^ (b2 <<< 16) ^^^ (b3 <<< 24))) 4) 4 := by
    have h := crcBytes_xor_split [b4, b5, b6, b7] 0
      (zeroUpdates (r ^^^ (b0 ^^^ (b1 <<< 8) ^^^ (b2 <<< 16) ^^^ (b3 <<< 24))) 4)
    rw [Nat.zero_xor] at h
    simpa using h
  rw [hxs]
  have hadd : zeroUpdates
        (zeroUpdates (r ^^^ (b0 ^^^ (b1 <<< 8) ^^^ (b2 <<< 16) ^^^ (b3 <<< 24))) 4) 4 =
      zeroUpdates (r ^^^ (b0 ^^^ (b1 <<< 8) ^^^ (b2 <<< 16) ^^^ (b3 <<< 24))) 8 := by
    have h := zeroUpdates_add 4 4 (r ^^^ (b0 ^^^ (b1 <<< 8) ^^^ (b2 <<< 16) ^^^ (b3 <<< 24)))
    norm_num at h
    exact h.symm
  rw [hadd, ← slice8_combine _ hx, crcBytes_zero_four b4 b5 b6 b7 h4 h5 h6 h7]
  simp [Nat.xor_assoc, Nat.xor_comm, xor_left_comm]

theorem crc32_slice4_eq_aux (n : Nat) :
    ∀ data : List Nat, data.length ≤ n → (∀ b ∈ data, b < 256) →
      ∀ r, r < 2 ^ 32 → crc32_slice4 r data = crcBytes r data := by
  induction n with
  | zero =>
      intro data hlen _ r _
      have hnil : data = [] := List.eq_nil_of_length_eq_zero (Nat.le_zero.mp hlen)
      subst hnil
      rfl
  | succ n ih =>
      intro data hlen hb r hr
      obtain _ | ⟨b0, _ | ⟨b1, _ | ⟨b2, _ | ⟨b3, rest⟩⟩⟩⟩ := data
      · rfl
      · rfl
      · rfl
      · rfl
      · have h0 : b0 < 256 := hb _ (by simp)
        have h1 : b1 < 256 := hb _ (by simp)
        have h2 : b2 < 256 := hb _ (by simp)
        have h3 : b3 < 256 := hb _ (by simp)
        have hrest : ∀ b ∈ rest, b < 256 := fun b hbm => hb b (by simp [hbm])
        have hlen' : rest.length ≤ n := by simp at hlen; omega
        have hTlt :
            crc32_table (0x300 + ((r ^^^ (b0 ^^^ (b1 <<< 8) ^^^ (b2 <<< 16) ^^^ (b3 <<< 24))) &&& 0xFF)) ^^^
              crc32_table (0x200 + (((r ^^^ (b0 ^^^ (b1 <<< 8) ^^^ (b2 <<< 16) ^^^ (b3 <<< 24))) >>> 8) &&& 0xFF)) ^^^
              crc32_table (0x100 + (((r ^^^ (b0 ^^^ (b1 <<< 8) ^^^ (b2 <<< 16) ^^^ (b3 <<< 24))) >>> 16) &&& 0xFF)) ^^^
              crc32_table ((r ^^^ (b0 ^^^ (b1 <<< 8) ^^^ (b2 <<< 16) ^^^ (b3 <<< 24))) >>> 24) < 2 ^ 32 :=
          Nat.xor_lt_two_pow
            (Nat.xor_lt_two_pow
              (Nat.xor_lt_two_pow (crc32_table_lt _) (crc32_table_lt _))
              (crc32_table_lt _))
            (crc32_table_lt _)
        calc crc32_slice4 r (b0 :: b1 :: b2 :: b3 :: rest)
            = crc32_slice4
                (crc32_table (0x300 + ((r ^^^ (b0 ^^^ (b1 <<< 8) ^^^ (b2 <<< 16) ^^^ (b3 <<< 24))) &&& 0xFF)) ^^^
                 crc32_table (0x200 + (((r ^^^ (b0 ^^^ (b1 <<< 8) ^^^ (b2 <<< 16) ^^^ (b3 <<< 24))) >>> 8) &&& 0xFF)) ^^^
                 crc32_table (0x100 + (((r ^^^ (b0 ^^^ (b1 <<< 8) ^^^ (b2 <<< 16) ^^^ (b3 <<< 24))) >>> 16) &&& 0xFF)) ^^^
                 crc32_table ((r ^^^ (b0 ^^^ (b1 <<< 8) ^^^ (b2 <<< 16) ^^^ (b3 <<< 24))) >>> 24)) rest := rfl
          _ = crcBytes
                (crc32_table (0x300 + ((r ^^^ (b0 ^^^ (b1 <<< 8) ^^^ (b2 <<< 16) ^^^ (b3 <<< 24))) &&& 0xFF)) ^^^
                 crc32_table (0x200 + (((r ^^^ (b0 ^^^ (b1 <<< 8) ^^^ (b2 <<< 16) ^^^ (b3 <<< 24))) >>> 8) &&& 0xFF)) ^^^
                 crc32_table (0x100 + (((r ^^^ (b0 ^^^ (b1 <<< 8) ^^^ (b2 <<< 16) ^^^ (b3 <<< 24))) >>> 16) &&& 0xFF)) ^^^
                 crc32_table ((r ^^^ (b0 ^^^ (b1 <<< 8) ^^^ (b2 <<< 16) ^^^ (b3 <<< 24))) >>> 24)) rest :=
              ih _ hlen' hrest _ hTlt
          _ = crcBytes (crcBytes r [b0, b1, b2, b3]) rest := by
              rw [slice4_step r b0 b1 b2 b3 hr h0 h1 h2 h3]
          _ = crcBytes r (b0 :: b1 :: b2 :: b3 :: rest) :=
              (crcBytes_append [b0, b1, b2, b3] rest r).symm

theorem crc32_slice8_eq_aux (n : Nat) :
    ∀ data : List Nat, data.length ≤ n → (∀ b ∈ data, b < 256) →
      ∀ r, r < 2 ^ 32 → crc32_slice8 r data = crcBytes r data := by
  induction n with
  | zero =>
      intro data hlen _ r _
      have hnil : data = [] := List.eq_nil_of_length_eq_zero (Nat.le_zero.mp hlen)
      subst hnil
      rfl
  | succ n ih =>
      intro data hlen hb r hr
      obtain _ | ⟨b0, _ | ⟨b1, _ | ⟨b2, _ | ⟨b3, _ | ⟨b4, _ | ⟨b5, _ | ⟨b6, _ | ⟨b7, rest⟩⟩⟩⟩⟩⟩⟩⟩ := data
      · rfl
      · rfl
      · rfl
      · rfl
      · rfl
      · rfl
      · rfl
      · rfl
      · have h0 : b0 < 256 := hb _ (by simp)
        have h1 : b1 < 256 := hb _ (by simp)
        have h2 : b2 < 256 := hb _ (by simp)
        have h3 : b3 < 256 := hb _ (by simp)
        have h4 : b4 < 256 := hb _ (by simp)
        have h5 : b5 < 256 := hb _ (by simp)
        have h6 : b6 < 256 := hb _ (by simp)
        have h7 : b7 < 256 := hb _ (by simp)
        have hrest : ∀ b ∈ rest, b < 256 := fun b hbm => hb b (by simp [hbm])
        have hlen' : rest.length ≤ n := by simp at hlen; omega
        have hTlt :
            crc32_table (0x700 + ((r ^^^ (b0 ^^^ (b1 <<< 8) ^^^ (b2 <<< 16) ^^^ (b3 <<< 24))) &&& 0xFF)) ^^^
              crc32_table (0x600 + (((r ^^^ (b0 ^^^ (b1 <<< 8) ^^^ (b2 <<< 16) ^^^ (b3 <<< 24))) >>> 8) &&& 0xFF)) ^^^
              crc32_table (0x500 + (((r ^^^ (b0 ^^^ (b1 <<< 8) ^^^ (b2 <<< 16) ^^^ (b3 <<< 24))) >>> 16) &&& 0xFF)) ^^^
              crc32_table (0x400 + ((r ^^^ (b0 ^^^ (b1 <<< 8) ^^^ (b2 <<< 16) ^^^ (b3 <<< 24))) >>> 24)) ^^^
              crc32_table (0x300 + b4) ^^^
              crc32_table (0x200 + b5) ^^^
              crc32_table (0x100 + b6) ^^^
              crc32_table b7 < 2 ^ 32 :=
          Nat.xor_lt_two_pow
            (Nat.xor_lt_two_pow
              (Nat.xor_lt_two_pow
                (Nat.xor_lt_two_pow
                  (Nat.xor_lt_two_pow
                    (Nat.xor_lt_two_pow
                      (Nat.xor_lt_two_pow (crc32_table_lt _) (crc32_table_lt _))
                      (crc32_table_lt _))
                    (crc32_table_lt _))
                  (crc32_table_lt _))
                (crc32_table_lt _))
              (crc32_table_lt _))
            (crc32_table_lt _)
        calc crc32_slice8 r (b0 :: b1 :: b2 :: b3 :: b4 :: b5 :: b6 :: b7 :: rest)
            = crc32_slice8
                (crc32_table (0x700 + ((r ^^^ (b0 ^^^ (b1 <<< 8) ^^^ (b2 <<< 16) ^^^ (b3 <<< 24))) &&& 0xFF)) ^^^
                 crc32_table (0x600 + (((r ^^^ (b0 ^^^ (b1 <<< 8) ^^^ (b2 <<< 16) ^^^ (b3 <<< 24))) >>> 8) &&& 0xFF)) ^^^
                 crc32_table (0x500 + (((r ^^^ (b0 ^^^ (b1 <<< 8) ^^^ (b2 <<< 16) ^^^ (b3 <<< 24))) >>> 16) &&& 0xFF)) ^^^
                 crc32_table (0x400 + ((r ^^^ (b0 ^^^ (b1 <<< 8) ^^^ (b2 <<< 16) ^^^ (b3 <<< 24))) >>> 24)) ^^^
                 crc32_table (0x300 + b4) ^^^
                 crc32_table (0x200 + b5) ^^^
                 crc32_table (0x100 + b6) ^^^
                 crc32_table b7) rest := rfl
          _ = crcBytes
                (crc32_table (0x700 + ((r ^^^ (b0 ^^^ (b1 <<< 8) ^^^ (b2 <<< 16) ^^^ (b3 <<< 24))) &&& 0xFF)) ^^^
                 crc32_table (0x600 + (((r ^^^ (b0 ^^^ (b1 <<< 8) ^^^ (b2 <<< 16) ^^^ (b3 <<< 24))) >>> 8) &&& 0xFF)) ^^^
                 crc32_table (0x500 + (((r ^^^ (b0 ^^^ (b1 <<< 8) ^^^ (b2 <<< 16) ^^^ (b3 <<< 24))) >>> 16) &&& 0xFF)) ^^^
                 crc32_table (0x400 + ((r ^^^ (b0 ^^^ (b1 <<< 8) ^^^ (b2 <<< 16) ^^^ (b3 <<< 24))) >>> 24)) ^^^
                 crc32_table (0x300 + b4) ^^^
                 crc32_table (0x200 + b5) ^^^
                 crc32_table (0x100 + b6) ^^^
                 crc32_table b7) rest :=
              ih _ hlen' hrest _ hTlt
          _ = crcBytes (crcBytes r [b0, b1, b2, b3, b4, b5, b6, b7]) rest := by
              rw [slice8_step r b0 b1 b2 b3 b4 b5 b6 b7 hr h0 h1 h2 h3 h4 h5 h6 h7]
          _ = crcBytes r (b0 :: b1 :: b2 :: b3 :: b4 :: b5 :: b6 :: b7 :: rest) :=
              (crcBytes_append [b0, b1, b2, b3, b4, b5, b6, b7] rest r).symm

/-- C2: for every byte sequence and every 32-bit initial remainder, the
slice-by-4 and slice-by-8 batched computations built from the generated table
groups return results bit-identical to the naive byte-at-a-time fold of
`crc32_update_byte` over the data. -/
theorem slice_by_n_matches_bytewise (r : Nat) (data : List Nat)
    (hr : r < 2 ^ 32) (hdata : ∀ b ∈ data, b < 256) :
    crc32_slice4 r data = crcBytes r data ∧ crc32_slice8 r data = crcBytes r data :=
  ⟨crc32_slice4_eq_aux data.length data le_rfl hdata r hr,
   crc32_slice8_eq_aux data.length data le_rfl hdata r hr⟩

theorem slice_by_n_matches_bytewise_witness :
    crc32_slice4 0 [1, 2, 3, 4, 5, 6, 7, 8, 9] = crcBytes 0 [1, 2, 3, 4, 5, 6, 7, 8, 9] ∧
      crc32_slice8 0 [1, 2, 3, 4, 5, 6, 7, 8, 9] = crcBytes 0 [1, 2, 3, 4, 5, 6, 7, 8, 9] :=
  slice_by_n_matches_bytewise 0 [1, 2, 3, 4, 5, 6, 7, 8, 9] (by decide) (by decide)

/-! ### Claim theorems: duplicate-window scan and level parsing -/

/-- C7: on the 48-byte stream of sixteen `A` bytes, sixteen `B` bytes and
sixteen `A` bytes, the width-16 rolling scan reports `(0, 32)` as a candidate
match, and offset 16 is matched neither with offset 0 nor with offset 32. -/
theorem scan_reports_0_32_but_not_16 :
    (0, 32) ∈ candidatePairs
        (List.replicate 16 65 ++ List.replicate 16 66 ++ List.replicate 16 65) 16 ∧
      (0, 16) ∉ candidatePairs
        (List.replicate 16 65 ++ List.replicate 16 66 ++ List.replicate 16 65) 16 ∧
      (16, 32) ∉ candidatePairs
        (List.replicate 16 65 ++ List.replicate 16 66 ++ List.replicate 16 65) 16 := by
  decide

/-- C10: `parse_compression_level` returns either 0 (rejection) or an
integer in the range `[1, 12]`, for every option character and argument. -/
theorem parse_compression_level_range (opt_char : Nat) (arg : List Nat) :
    parse_compression_level opt_char arg = 0 ∨
      (1 ≤ parse_compression_level opt_char arg ∧
        parse_compression_level opt_char arg ≤ 12) := by
  simp only [parse_compression_level]
  split
  · left; rfl
  · rename_i h
    push_neg at h
    right
    exact ⟨h.1, h.2.1⟩
